import Mathlib

/-!
Shallow embedding of `fvalues` (`src/fvalues/f.py`), a provenance-tracking
string type.  Python strings are modelled as lists of characters (`Str`);
machine evaluation of interpolated sub-expressions (`eval`) is modelled as an
oracle carried by a `Frame`.  Fallible Python code (asserts, raised
exceptions) is modelled with `Except Err`.
-/

/-- Python `str` is modelled as a list of characters. -/
abbrev Str := List Char

/-- Helper turning a Lean string literal into the character-list model. -/
def chars (s : String) : Str := s.toList

/-- The default charset of `str.strip()` / `lstrip` / `rstrip`:
Python trims whitespace characters when no argument is given. -/
def pyWS : Char → Bool := fun c => c.isWhitespace

/-- Python `s.lstrip(chars)`: drop the longest prefix of characters in the
charset (the charset is modelled as a membership predicate). -/
def pyLStrip (cs : Char → Bool) (s : Str) : Str := s.dropWhile cs

/-- Python `s.rstrip(chars)`: drop the longest suffix of characters in the
charset. -/
def pyRStrip (cs : Char → Bool) (s : Str) : Str :=
  (s.reverse.dropWhile cs).reverse

/-- Python `s.strip(chars)` as used by `F.strip`: lstrip then rstrip. -/
def pyStrip (cs : Char → Bool) (s : Str) : Str := pyRStrip cs (pyLStrip cs s)

mutual

/-- A runtime value (`Any` in `FValue.value`): a plain string, an `F`
instance (since `F` subclasses `str`, these are distinguished with
`isinstance`), or an opaque non-string scalar (numbers etc.). -/
inductive PyVal : Type where
  | vstr : Str → PyVal
  | vf : FObj → PyVal
  | vraw : Nat → PyVal

/-- A value of Python static type `str` stored where the code expects a
string: a plain `str` or an `F` instance (`F` subclasses `str`).
`FValue.formatted` has this type: besides plain rendered text, the `else`
branch of `_parts_from_node` stores the addition operand itself as
`formatted`, and that operand may be an `F` carrying its own parts. -/
inductive PyStr : Type where
  | pstr : Str → PyStr
  | pf : FObj → PyStr

/-- `Part = str | FValue` from f.py.  A plain-`str` part is `lit`; an `F`
instance used where a `str` part is expected is `fstr` (it *is* a `str` in
Python, carrying its own part list); `fvalue` is the `FValue` dataclass with
fields `source`, `value`, `formatted`. -/
inductive FPart : Type where
  | lit : Str → FPart
  | fstr : FObj → FPart
  | fvalue : Str → PyVal → PyStr → FPart

/-- The data of an `F` instance: the underlying string content (`str(self)`)
and the `parts` attribute. -/
inductive FObj : Type where
  | mk : Str → List FPart → FObj

end

/-- The string content of an `F` instance (`str(self)`). -/
def FObj.text : FObj → Str
  | .mk t _ => t

/-- The `parts` attribute of an `F` instance. -/
def FObj.parts : FObj → List FPart
  | .mk _ ps => ps

/-- The character content of a Python string value (`str(x)`). -/
def PyStr.text : PyStr → Str
  | .pstr s => s
  | .pf f => f.text

/-- The displayed (surface) text of a part, as used by the reconstruction
check in `F.__new__`: `part.formatted if isinstance(part, FValue) else part`
(an `F` part is a `str`, whose text is its own content). -/
def FPart.surface : FPart → Str
  | .lit s => s
  | .fstr f => f.text
  | .fvalue _ _ fmt => fmt.text

/-- Is this part an `F` instance (`isinstance(part, F)`)? -/
def FPart.isFstr : FPart → Bool
  | .fstr _ => true
  | _ => false

/-- A part whose surface is a plain `str`: not an `F` instance and, for a
Formatted-Value part, with a plain-`str` `formatted`.  The boundary scan
of `F._strip` trims such parts textually without recursing; they are the
only parts it can delete (an `F` surface makes `getattr(s, method)`
dispatch to the recursive `F` strip, which either raises or survives
non-empty). -/
def isPlainPart : FPart → Bool
  | .lit _ => true
  | .fvalue _ _ (.pstr _) => true
  | _ => false

/-- The `expected` string of `F.__new__`: the concatenation of
`part.formatted if isinstance(part, FValue) else part` over the parts. -/
def concatSurfaces (ps : List FPart) : Str :=
  (ps.map FPart.surface).flatten

/-- Exceptions raised by the Python code.  The spec names some of them:
`inconsistentParts` is the `assert s == expected` in `F.__new__`
(spec: `InconsistentPartsError`); `ambiguousInvocation` is the
`TypeError("F must be called directly, nothing fancy")`
(spec: `AmbiguousInvocationError`); `evaluation` is an exception escaping
`eval` (spec: `EvaluationError`); `indexError` is the `IndexError` from
`parts[index]` on an exhausted list in `F._strip`; `argUnpack` is the
`ValueError` from `[arg] = ex.node.args`; `assertionFailed` covers the other
asserts in `F._parts_from_node`. -/
inductive Err : Type where
  | inconsistentParts
  | ambiguousInvocation
  | evaluation
  | indexError
  | argUnpack
  | assertionFailed
deriving DecidableEq, Repr

/-- Warnings emitted by the code.  Modelled from the spec: the
`NoSourceAvailableWarning` class itself is declared outside `src/` (the
tests import it from the package root); `warnings.warn` at f.py line 37 is
modelled as returning this warning event alongside the result. -/
inductive Warning : Type where
  | noSourceAvailable
deriving DecidableEq, Repr

/-- The checking constructor `F.__new__` when `parts` is given: verifies
Invariant I1 (`assert s == expected`) and stores `text` and `parts`. -/
def mkF (s : Str) (ps : List FPart) : Except Err FObj :=
  if concatSurfaces ps = s then .ok (.mk s ps) else .error .inconsistentParts

example : mkF (chars "ab") [.lit (chars "a"), .lit (chars "b")] =
    .ok (.mk (chars "ab") [.lit (chars "a"), .lit (chars "b")]) := rfl

example : mkF (chars "ab") [.lit (chars "a")] = .error .inconsistentParts :=
  rfl

/-- An AST expression node, as consumed by `F._parts_from_node`.
Sub-expressions that the code only ever touches through `ast.unparse` and
`eval` are represented by their unparsed source text, so `ast.unparse` is
the identity on this representation.  `constant` is an `ast.Constant` whose
value is a string; `constantNonStr` an `ast.Constant` with a non-string
value (the code asserts it away); `joinedStr` is `ast.JoinedStr` with its
ordered children; `formattedValue` is `ast.FormattedValue`, carrying the
unparsed source of its `value` sub-expression, the optional conversion and
the optional format-spec source; `other` is any other expression node. -/
inductive Expr : Type where
  | constant : Str → Expr
  | constantNonStr : Nat → Expr
  | joinedStr : List Expr → Expr
  | formattedValue : Str → Option Nat → Option Str → Expr
  | other : Str → Expr

/-- The evaluation context (`frame.f_globals` / `frame.f_locals`), modelled
as oracles: `evalV src` is `eval(source, frame.f_globals, frame.f_locals)`
on the unparsed sub-expression, and `evalFmt src conv spec` is the
evaluation of the compiled one-element `JoinedStr` wrapping the whole
`FormattedValue` construct (sub-expression, conversion and format spec).
A raised exception is `Err.evaluation`. -/
structure Frame : Type where
  evalV : Str → Except Err PyVal
  evalFmt : Str → Option Nat → Option Str → Except Err Str

mutual

/-- `F._parts_from_node(node, frame, value)` from f.py lines 46-69. -/
def partsFromNode (fr : Frame) : Expr → Option FPart → Except Err (List FPart)
  | .constant s, _ => .ok [.lit s]
  | .constantNonStr _, _ => .error .assertionFailed
  | .joinedStr ns, _ => partsFromNodes fr ns
  | .formattedValue src conv spec, _ => do
      let v ← fr.evalV src
      let fmt ← fr.evalFmt src conv spec
      .ok [.fvalue src v (.pstr fmt)]
  | .other src, val =>
      match val with
      | some (.lit s) => .ok [.fvalue src (.vstr s) (.pstr s)]
      | some (.fstr f) => .ok [.fvalue src (.vf f) (.pf f)]
      | _ => .error .assertionFailed

/-- The `for node in node.values: parts.extend(...)` loop of the
`ast.JoinedStr` branch: each child is decomposed with `value=None` and the
resulting part lists are concatenated in order. -/
def partsFromNodes (fr : Frame) : List Expr → Except Err (List FPart)
  | [] => .ok []
  | n :: ns => do
      let ps ← partsFromNode fr n none
      let rest ← partsFromNodes fr ns
      .ok (ps ++ rest)

end

/-- What `executing.Source.executing(frame)` finds at an `F(...)` call
site: no node, a node that is not an `ast.Call`, or a direct call with its
argument list and the caller frame. -/
inductive CallSite : Type where
  | noNode
  | nonCall
  | call : List Expr → Frame → CallSite

/-- `F.__new__(cls, s, parts)` from f.py lines 24-43.  With explicit
`parts` the reconstruction invariant is checked; otherwise the call site
decides: no node emits the warning and falls back to `(s,)` (re-entering
the checking path), a non-`ast.Call` node raises, and a direct call
decomposes the sole argument node (`[arg] = ex.node.args` raising when the
argument count differs).  The result carries the list of warnings emitted
during construction. -/
def FNew (s : Str) (parts? : Option (List FPart)) (site : CallSite) :
    Except Err (FObj × List Warning) :=
  match parts? with
  | some ps => do
      let f ← mkF s ps
      .ok (f, [])
  | none =>
    match site with
    | .noNode => do
        let f ← mkF s [.lit s]
        .ok (f, [.noSourceAvailable])
    | .nonCall => .error .ambiguousInvocation
    | .call args fr =>
      match args with
      | [arg] => do
          let ps ← partsFromNode fr arg (some (.lit s))
          let f ← mkF s ps
          .ok (f, [])
      | _ => .error .argUnpack

mutual

/-- `F.flatten(self)` from f.py lines 74-83: rebuild the part list,
inlining the (recursively flattened) parts of any `F` nested as an
`FValue.value` or appearing directly as a part, then re-enter the checking
constructor with the unchanged text `str(self)`. -/
def flattenF : FObj → Except Err FObj
  | .mk t ps => do
      let qs ← flattenParts ps
      mkF t qs

/-- The `for part in self.parts` loop of `F.flatten`. -/
def flattenParts : List FPart → Except Err (List FPart)
  | [] => .ok []
  | p :: ps =>
    match p with
    | .fvalue _ (.vf g) _ => do
        let gf ← flattenF g
        let rest ← flattenParts ps
        .ok (gf.parts ++ rest)
    | .fstr g => do
        let gf ← flattenF g
        let rest ← flattenParts ps
        .ok (gf.parts ++ rest)
    | _ => do
        let rest ← flattenParts ps
        .ok (p :: rest)

end

mutual

/-- The boundary scan of `F._strip(self, 0, "lstrip", *args)` (f.py lines
94-113, the `while True` loop): trim the first part's surface text; an
empty remainder deletes the part (`del parts[index]`) and the loop retries
with the next part; a non-empty remainder replaces the part, updating only
`formatted` for an `FValue`, and keeping the recursively-stripped `F` (with
its own parts) for an `F` part.  `parts[index]` on the emptied list raises
`IndexError`: the `while True` loop has no exhaustion exit. -/
def lstripParts (cs : Char → Bool) : List FPart → Except Err (List FPart)
  | [] => .error .indexError
  | p :: ps =>
    match p with
    | .fstr g => do
        let g2 ← lstripF cs g
        if g2.text.isEmpty then lstripParts cs ps
        else .ok (.fstr g2 :: ps)
    | .lit s =>
        let s2 := pyLStrip cs s
        if s2.isEmpty then lstripParts cs ps else .ok (.lit s2 :: ps)
    | .fvalue src v (.pstr s) =>
        let s2 := pyLStrip cs s
        if s2.isEmpty then lstripParts cs ps
        else .ok (.fvalue src v (.pstr s2) :: ps)
    | .fvalue src v (.pf g) => do
        let g2 ← lstripF cs g
        if g2.text.isEmpty then lstripParts cs ps
        else .ok (.fvalue src v (.pf g2) :: ps)

/-- `F.lstrip` (f.py lines 88-89): scan the parts, then
`s = getattr(super(), "lstrip")(*args)` computes the new text from the
whole string and the checking constructor rebuilds the result. -/
def lstripF (cs : Char → Bool) : FObj → Except Err FObj
  | .mk t ps => do
      let qs ← lstripParts cs ps
      mkF (pyLStrip cs t) qs

end

mutual

/-- One trim attempt on the current right-boundary part (the body of the
`while True` loop of `F._strip` with `index = -1`): `.ok none` means the
remainder was empty and the part is deleted (`del parts[-1]`); otherwise
the replaced boundary part is returned, updating only `formatted` for an
`FValue`, keeping the recursively-rstripped `F` (with its own parts) for an
`F` part, and replacing a plain `str` part by its stripped text. -/
def rstripStep (cs : Char → Bool) : FPart → Except Err (Option (List FPart))
  | .fstr g => do
      let g2 ← rstripF cs g
      if g2.text.isEmpty then .ok none
      else .ok (some [.fstr g2])
  | .lit s =>
      let s2 := pyRStrip cs s
      if s2.isEmpty then .ok none else .ok (some [.lit s2])
  | .fvalue src v (.pstr s) =>
      let s2 := pyRStrip cs s
      if s2.isEmpty then .ok none
      else .ok (some [.fvalue src v (.pstr s2)])
  | .fvalue src v (.pf g) => do
      let g2 ← rstripF cs g
      if g2.text.isEmpty then .ok none
      else .ok (some [.fvalue src v (.pf g2)])

/-- The boundary scan of `F._strip(self, -1, "rstrip", *args)`: the same
loop as lstrip with `index = -1`, i.e. operating on the last part and
deleting from the back.  The Python loop mutates the list in place; here
the recursion reaches the last element first and `.ok none` signals "this
whole suffix was deleted, the boundary moved into the prefix", so the
element before it is tried next, exactly like the repeated `del parts[-1]`.
`.ok none` surviving to the top is the `IndexError` of `parts[-1]` on the
emptied list. -/
def rstripScan (cs : Char → Bool) : List FPart → Except Err (Option (List FPart))
  | [] => .ok none
  | p :: ps => do
    match ← rstripScan cs ps with
    | some qs => .ok (some (p :: qs))
    | none => rstripStep cs p

/-- `F.rstrip` (f.py lines 91-92). -/
def rstripF (cs : Char → Bool) : FObj → Except Err FObj
  | .mk t ps => do
      match ← rstripScan cs ps with
      | none => .error .indexError
      | some qs => mkF (pyRStrip cs t) qs

end

theorem rstripScan_cons (cs : Char → Bool) (p : FPart) (ps : List FPart) :
    rstripScan cs (p :: ps) = (rstripScan cs ps) >>= (fun o =>
      match o with
      | some qs => .ok (some (p :: qs))
      | none => rstripStep cs p) := rfl

theorem rstripScan_cons_some {cs : Char → Bool} {ps qs : List FPart}
    (p : FPart) (h : rstripScan cs ps = .ok (some qs)) :
    rstripScan cs (p :: ps) = .ok (some (p :: qs)) := by
  rw [rstripScan_cons, h]
  rfl

theorem rstripScan_cons_none {cs : Char → Bool} {ps : List FPart}
    (p : FPart) (h : rstripScan cs ps = .ok none) :
    rstripScan cs (p :: ps) = rstripStep cs p := by
  rw [rstripScan_cons, h]
  rfl

/-- `F.strip(self, *args)` (f.py lines 85-86): lstrip then rstrip. -/
def stripF (cs : Char → Bool) (f : FObj) : Except Err FObj := do
  let g ← lstripF cs f
  rstripF cs g

/-- What `executing.Source.executing(frame)` finds at the enclosing
addition site in `F._add`: an `ast.BinOp` or `ast.AugAssign` node (with its
operator kind and the operand nodes, `left`/`right` resp.
`target`/`value`), some other node, or none. -/
inductive AddSite : Type where
  | noNode
  | binOp : Bool → Expr → Expr → AddSite
  | augAssign : Bool → Expr → Expr → AddSite
  | otherNode

/-- An operand of `+` as seen by `F.__add__` / `F.__radd__`: a plain `str`
or an `F` instance. -/
inductive Operand : Type where
  | ostr : Str → Operand
  | ofobj : FObj → Operand

/-- `str(x)` on an operand. -/
def Operand.text : Operand → Str
  | .ostr s => s
  | .ofobj f => f.text

/-- An operand used directly as a part (the fallback `parts = (self,
other)`) or passed as the `value` argument of `_parts_from_node`. -/
def Operand.toPart : Operand → FPart
  | .ostr s => .lit s
  | .ofobj f => .fstr f

/-- `F._add(self, other, is_left)` from f.py lines 115-133, also covering
`__add__` (`is_left=True`) and `__radd__` (`is_left=False`).  The operand
pair is ordered by `is_left`; the base text is the plain concatenation; if
the enclosing node is an addition `BinOp`/`AugAssign` both operand nodes
are decomposed (carrying the known operand values) and replace the
fallback parts `(self, other)`/`(other, self)`; the checking constructor
finishes.  The Bool on `binOp`/`augAssign` is `isinstance(node.op,
ast.Add)`. -/
def FAdd (self : FObj) (other : Operand) (isLeft : Bool) (site : AddSite)
    (fr : Frame) : Except Err FObj :=
  let lhs : Operand := if isLeft then .ofobj self else other
  let rhs : Operand := if isLeft then other else .ofobj self
  let value := lhs.text ++ rhs.text
  match site with
  | .binOp true ln rn => do
      let lp ← partsFromNode fr ln (some lhs.toPart)
      let rp ← partsFromNode fr rn (some rhs.toPart)
      mkF value (lp ++ rp)
  | .augAssign true ln rn => do
      let lp ← partsFromNode fr ln (some lhs.toPart)
      let rp ← partsFromNode fr rn (some rhs.toPart)
      mkF value (lp ++ rp)
  | _ => mkF value [lhs.toPart, rhs.toPart]

/-- A frame whose oracles always raise, for concrete instantiations that
never reach them. -/
def noFrame : Frame :=
  ⟨fun _ => .error .evaluation, fun _ _ _ => .error .evaluation⟩

example : lstripF pyWS (.mk (chars " ") [.lit (chars " ")]) =
    .error .indexError := rfl

example : flattenF (.mk (chars "a") [.lit (chars "a")]) =
    .ok (.mk (chars "a") [.lit (chars "a")]) := rfl

example : rstripF pyWS (.mk (chars " a ") [.lit (chars " a ")]) =
    .ok (.mk (chars " a") [.lit (chars " a")]) := rfl

theorem concatSurfaces_nil : concatSurfaces [] = [] := rfl

theorem concatSurfaces_cons (p : FPart) (ps : List FPart) :
    concatSurfaces (p :: ps) = p.surface ++ concatSurfaces ps := by
  simp [concatSurfaces]

theorem concatSurfaces_append (a b : List FPart) :
    concatSurfaces (a ++ b) = concatSurfaces a ++ concatSurfaces b := by
  simp [concatSurfaces]

theorem mkF_ok {s : Str} {ps : List FPart} {f : FObj}
    (h : mkF s ps = .ok f) : f = .mk s ps ∧ concatSurfaces ps = s := by
  by_cases hc : concatSurfaces ps = s
  · refine ⟨?_, hc⟩
    simpa [mkF, hc, eq_comm] using h
  · simp [mkF, hc] at h

theorem mkF_ok_of {s : Str} {ps : List FPart} (h : concatSurfaces ps = s) :
    mkF s ps = .ok (.mk s ps) := by
  simp [mkF, h]

theorem mkF_err {s : Str} {ps : List FPart} (h : concatSurfaces ps ≠ s) :
    mkF s ps = .error .inconsistentParts := by
  simp [mkF, h]

theorem exceptBind_ok {α β : Type} {x : Except Err α} {g : α → Except Err β}
    {b : β} (h : (x >>= g) = .ok b) : ∃ a, x = .ok a ∧ g a = .ok b := by
  cases x with
  | ok a => exact ⟨a, rfl, h⟩
  | error e => simp [Bind.bind, Except.bind] at h

theorem pyLStrip_nil (cs : Char → Bool) : pyLStrip cs [] = [] := rfl

theorem pyLStrip_append_empty {cs : Char → Bool} {a : Str} (b : Str)
    (h : pyLStrip cs a = []) : pyLStrip cs (a ++ b) = pyLStrip cs b := by
  induction a with
  | nil => rfl
  | cons c a ih =>
      by_cases hc : cs c
      · simp only [pyLStrip, List.dropWhile] at h ⊢
        rw [hc] at h ⊢
        exact ih h
      · simp only [pyLStrip, List.dropWhile] at h
        rw [Bool.of_not_eq_true hc] at h
        simp at h

theorem pyLStrip_append_ne {cs : Char → Bool} {a : Str} (b : Str)
    (h : pyLStrip cs a ≠ []) : pyLStrip cs (a ++ b) = pyLStrip cs a ++ b := by
  induction a with
  | nil => simp [pyLStrip] at h
  | cons c a ih =>
      by_cases hc : cs c
      · simp only [pyLStrip, List.dropWhile] at h ⊢
        rw [hc] at h ⊢
        exact ih h
      · simp only [pyLStrip, List.dropWhile] at h ⊢
        rw [Bool.of_not_eq_true hc] at h ⊢
        simp

theorem pyLStrip_eq_nil_iff {cs : Char → Bool} {s : Str} :
    pyLStrip cs s = [] ↔ ∀ c ∈ s, cs c := List.dropWhile_eq_nil_iff

theorem pyRStrip_via_reverse (cs : Char → Bool) (s : Str) :
    pyRStrip cs s = (pyLStrip cs s.reverse).reverse := rfl

theorem pyRStrip_eq_nil_iff {cs : Char → Bool} {s : Str} :
    pyRStrip cs s = [] ↔ ∀ c ∈ s, cs c := by
  rw [pyRStrip_via_reverse]
  simp [pyLStrip_eq_nil_iff]

theorem pyRStrip_append_empty {cs : Char → Bool} (a : Str) {b : Str}
    (h : pyRStrip cs b = []) : pyRStrip cs (a ++ b) = pyRStrip cs a := by
  rw [pyRStrip_via_reverse] at h ⊢
  rw [pyRStrip_via_reverse]
  have hb : pyLStrip cs b.reverse = [] := by
    have := congrArg List.reverse h
    simpa using this
  rw [List.reverse_append, pyLStrip_append_empty _ hb]

theorem pyRStrip_append_ne {cs : Char → Bool} (a : Str) {b : Str}
    (h : pyRStrip cs b ≠ []) : pyRStrip cs (a ++ b) = a ++ pyRStrip cs b := by
  rw [pyRStrip_via_reverse] at h ⊢
  rw [pyRStrip_via_reverse]
  have hb : pyLStrip cs b.reverse ≠ [] := by
    intro hx
    exact h (by simp [hx])
  rw [List.reverse_append, pyLStrip_append_ne _ hb]
  simp

/-- Invariant I1 of the spec: the parts reconstruct the text. -/
def reconOK (f : FObj) : Prop := concatSurfaces f.parts = f.text

theorem mkF_recon {s : Str} {ps : List FPart} {f : FObj}
    (h : mkF s ps = .ok f) : reconOK f := by
  obtain ⟨rfl, hc⟩ := mkF_ok h
  exact hc

theorem flattenF_recon (f g : FObj) (h : flattenF f = .ok g) : reconOK g := by
  obtain ⟨t, ps⟩ := f
  simp only [flattenF] at h
  obtain ⟨qs, _, hg⟩ := exceptBind_ok h
  exact mkF_recon hg

theorem lstripF_recon (cs : Char → Bool) (f g : FObj)
    (h : lstripF cs f = .ok g) : reconOK g := by
  obtain ⟨t, ps⟩ := f
  simp only [lstripF] at h
  obtain ⟨qs, _, hg⟩ := exceptBind_ok h
  exact mkF_recon hg

theorem rstripF_recon (cs : Char → Bool) (f g : FObj)
    (h : rstripF cs f = .ok g) : reconOK g := by
  obtain ⟨t, ps⟩ := f
  simp only [rstripF] at h
  obtain ⟨o, _, hg⟩ := exceptBind_ok h
  cases o with
  | none => simp at hg
  | some qs => exact mkF_recon hg

theorem stripF_recon (cs : Char → Bool) (f g : FObj)
    (h : stripF cs f = .ok g) : reconOK g := by
  simp only [stripF] at h
  obtain ⟨m, _, hg⟩ := exceptBind_ok h
  exact rstripF_recon cs m g hg

theorem FAdd_recon (self : FObj) (other : Operand) (isLeft : Bool)
    (site : AddSite) (fr : Frame) (g : FObj)
    (h : FAdd self other isLeft site fr = .ok g) : reconOK g := by
  cases site with
  | noNode => exact mkF_recon h
  | otherNode => exact mkF_recon h
  | binOp b ln rn =>
      cases b with
      | false => exact mkF_recon h
      | true =>
          simp only [FAdd] at h
          obtain ⟨lp, _, h1⟩ := exceptBind_ok h
          obtain ⟨rp, _, h2⟩ := exceptBind_ok h1
          exact mkF_recon h2
  | augAssign b ln rn =>
      cases b with
      | false => exact mkF_recon h
      | true =>
          simp only [FAdd] at h
          obtain ⟨lp, _, h1⟩ := exceptBind_ok h
          obtain ⟨rp, _, h2⟩ := exceptBind_ok h1
          exact mkF_recon h2

theorem FNew_recon (s : Str) (parts? : Option (List FPart)) (site : CallSite)
    (f : FObj) (w : List Warning)
    (h : FNew s parts? site = .ok (f, w)) : reconOK f := by
  cases parts? with
  | some ps =>
      simp only [FNew] at h
      obtain ⟨a, ha, hg⟩ := exceptBind_ok h
      obtain ⟨rfl, -⟩ : a = f ∧ [] = w := by
        constructor <;> [skip; skip] <;> injection hg with hx <;>
          first
            | exact congrArg Prod.fst hx
            | exact congrArg Prod.snd hx
      exact mkF_recon ha
  | none =>
    cases site with
    | noNode =>
        simp only [FNew] at h
        obtain ⟨a, ha, hg⟩ := exceptBind_ok h
        have : a = f := by injection hg with hx; exact congrArg Prod.fst hx
        subst this
        exact mkF_recon ha
    | nonCall => simp [FNew] at h
    | call args fr =>
        match args with
        | [] => simp [FNew] at h
        | [arg] =>
            simp only [FNew] at h
            obtain ⟨ps, -, h1⟩ := exceptBind_ok h
            obtain ⟨a, ha, hg⟩ := exceptBind_ok h1
            have : a = f := by injection hg with hx; exact congrArg Prod.fst hx
            subst this
            exact mkF_recon ha
        | _ :: _ :: _ => simp [FNew] at h

/-- C1: every Provenance String successfully returned by any operation
(explicit-parts construction, source-derived construction, flatten, the
strip family, concatenation) satisfies Invariant I1 — the concatenation of
the parts' displayed texts equals the text — and constructing with
explicit parts that violate the equality is a fatal construction-time
error (`InconsistentPartsError`, the assert in `F.__new__`). -/
theorem C1_reconstruction_invariant :
    (∀ (s : Str) (ps : List FPart) (site : CallSite) (f : FObj)
        (w : List Warning), FNew s (some ps) site = .ok (f, w) → reconOK f)
  ∧ (∀ (s : Str) (ps : List FPart) (site : CallSite),
        concatSurfaces ps ≠ s → FNew s (some ps) site = .error .inconsistentParts)
  ∧ (∀ (s : Str) (site : CallSite) (f : FObj) (w : List Warning),
        FNew s none site = .ok (f, w) → reconOK f)
  ∧ (∀ f g : FObj, flattenF f = .ok g → reconOK g)
  ∧ (∀ (cs : Char → Bool) (f g : FObj), lstripF cs f = .ok g → reconOK g)
  ∧ (∀ (cs : Char → Bool) (f g : FObj), rstripF cs f = .ok g → reconOK g)
  ∧ (∀ (cs : Char → Bool) (f g : FObj), stripF cs f = .ok g → reconOK g)
  ∧ (∀ (self : FObj) (other : Operand) (isLeft : Bool) (site : AddSite)
        (fr : Frame) (g : FObj),
        FAdd self other isLeft site fr = .ok g → reconOK g) := by
  refine ⟨?_, ?_, ?_, flattenF_recon, lstripF_recon, rstripF_recon,
    stripF_recon, FAdd_recon⟩
  · intro s ps site f w h
    exact FNew_recon s (some ps) site f w h
  · intro s ps site hne
    simp only [FNew, mkF_err hne]
    rfl
  · intro s site f w h
    exact FNew_recon s none site f w h

/-- Closed witness for C1 at concrete inputs: a successful flatten result
reconstructs, and a violating explicit-parts construction is rejected. -/
theorem C1_reconstruction_invariant_witness :
    reconOK (.mk (chars "ab") [.lit (chars "a"), .lit (chars "b")])
  ∧ FNew (chars "ab") (some [.lit (chars "x")]) .noNode =
      .error .inconsistentParts := by
  constructor
  · exact C1_reconstruction_invariant.2.2.2.1
      (.mk (chars "ab") [.lit (chars "a"), .lit (chars "b")])
      (.mk (chars "ab") [.lit (chars "a"), .lit (chars "b")]) rfl
  · exact C1_reconstruction_invariant.2.1 (chars "ab") [.lit (chars "x")]
      .noNode (by decide)

/-- C8: construction without explicit parts when the resolver returns no
syntax node does not fail: it returns a Provenance String whose parts are
exactly one literal part equal to the full text, and the warning list
contains the no-source warning exactly once. -/
theorem C8_no_node_degrades_with_warning (s : Str) :
    FNew s none .noNode = .ok (.mk s [.lit s], [.noSourceAvailable]) := by
  have h : concatSurfaces [FPart.lit s] = s := by
    simp [concatSurfaces, FPart.surface]
  simp only [FNew, mkF_ok_of h]
  rfl

/-- C9: construction without explicit parts when the resolver returns a
node that is not a direct `ast.Call` invocation fails immediately with the
`TypeError` the spec calls `AmbiguousInvocationError`; no Provenance
String is produced. -/
theorem C9_non_call_node_fails (s : Str) :
    FNew s none .nonCall = .error .ambiguousInvocation := rfl

/-- C2: the claim fails on this code.  Stripping an all-trimmable
Provenance String does not return the empty string with `parts == ()`:
the `while True` scan in `F._strip` deletes every part and then evaluates
`parts[index]` on the emptied list, raising `IndexError`.  Concretely,
`F(" ").strip()` (text `" "`, parts `(" ",)`, a valid instance satisfying
I1) raises instead of returning `F("", ())` — contradicting the repo's own
`test_strip`, which asserts `F(" ").strip() == ""`. -/
theorem C2_strip_all_trimmable_raises :
    reconOK (.mk (chars " ") [.lit (chars " ")])
  ∧ stripF pyWS (.mk (chars " ") [.lit (chars " ")]) = .error .indexError :=
  ⟨rfl, rfl⟩

/-- C5: the claim fails on this code.  For `s = F(f"{space}")` with
`space = " "` (text `" "`, one Formatted-Value part, satisfying I1),
`s.text.strip()` is the empty string but `s.strip()` raises `IndexError`
in the boundary scan rather than returning a Provenance String, so
`s.strip().text == s.text.strip()` fails — contradicting the repo's own
`test_strip`, which asserts this very case is `""`. -/
theorem C5_strip_text_law_raises :
    reconOK (.mk (chars " ") [.fvalue (chars "space") (.vstr (chars " "))
      (.pstr (chars " "))])
  ∧ pyStrip pyWS (chars " ") = []
  ∧ stripF pyWS (.mk (chars " ") [.fvalue (chars "space")
      (.vstr (chars " ")) (.pstr (chars " "))]) = .error .indexError :=
  ⟨rfl, rfl, rfl⟩

/-- C6: the Source Decomposer.  For every frame: a plain string-literal
node yields exactly one literal part with that literal's text; the empty
interpolation sequence yields no parts and a non-empty one yields the
decomposition of its first child followed in order by the decomposition of
the remaining children (so the whole sequence is the in-order
concatenation of its children's decompositions); an embedded sub-expression
node with optional conversion and format specifier, when its source text
evaluates to `v` and the entire embedded-expression construct evaluates to
`fmt`, yields exactly one Formatted-Value part `{source, v, fmt}` whose
source excludes the specifier. -/
theorem C6_decomposer_cases (fr : Frame) :
    (∀ (s : Str) (v? : Option FPart),
        partsFromNode fr (.constant s) v? = .ok [.lit s])
  ∧ (∀ (ns : List Expr) (v? : Option FPart),
        partsFromNode fr (.joinedStr ns) v? = partsFromNodes fr ns)
  ∧ partsFromNodes fr [] = .ok []
  ∧ (∀ (n : Expr) (ns : List Expr) (l1 l2 : List FPart),
        partsFromNode fr n none = .ok l1 → partsFromNodes fr ns = .ok l2 →
        partsFromNodes fr (n :: ns) = .ok (l1 ++ l2))
  ∧ (∀ (src : Str) (conv : Option Nat) (spec : Option Str) (v : PyVal)
        (fmt : Str) (v? : Option FPart),
        fr.evalV src = .ok v → fr.evalFmt src conv spec = .ok fmt →
        partsFromNode fr (.formattedValue src conv spec) v? =
          .ok [.fvalue src v (.pstr fmt)]) := by
  refine ⟨fun s v? => rfl, fun ns v? => rfl, rfl, ?_, ?_⟩
  · intro n ns l1 l2 h1 h2
    simp only [partsFromNodes, h1, h2]
    rfl
  · intro src conv spec v fmt v? h1 h2
    simp only [partsFromNode, h1, h2]
    rfl

/-- Closed witness for C6: a concrete frame mapping every source text to
itself as a string value, evaluated on an embedded sub-expression and on a
two-element interpolation sequence. -/
theorem C6_decomposer_cases_witness :
    partsFromNode ⟨fun s => .ok (.vstr s), fun s _ _ => .ok s⟩
      (.formattedValue (chars "x") none none) none =
        .ok [.fvalue (chars "x") (.vstr (chars "x")) (.pstr (chars "x"))]
  ∧ partsFromNodes ⟨fun s => .ok (.vstr s), fun s _ _ => .ok s⟩
      [.constant (chars "a"), .formattedValue (chars "x") none none] =
        .ok [.lit (chars "a"),
             .fvalue (chars "x") (.vstr (chars "x")) (.pstr (chars "x"))] := by
  constructor
  · exact (C6_decomposer_cases _).2.2.2.2 (chars "x") none none
      (.vstr (chars "x")) (chars "x") none rfl rfl
  · exact (C6_decomposer_cases _).2.2.2.1 (.constant (chars "a"))
      [.formattedValue (chars "x") none none]
      [.lit (chars "a")]
      [.fvalue (chars "x") (.vstr (chars "x")) (.pstr (chars "x"))] rfl rfl

/-- C3: whenever `a + b` (via `__add__` or `__radd__`, including
add-and-assign sites) returns a Provenance String, its text is the
concatenation of the operand texts in left/right order, on both the
precise-attribution path (an enclosing addition node was found, its two
operand nodes decomposed independently) and the fallback path (parts are
exactly the two operands, left then right). -/
theorem C3_add_text_and_order (self : FObj) (other : Operand) (isLeft : Bool)
    (site : AddSite) (fr : Frame) (g : FObj)
    (h : FAdd self other isLeft site fr = .ok g) :
    g.text = (if isLeft then self.text ++ other.text
              else other.text ++ self.text)
  ∧ ((∃ ln rn, (site = .binOp true ln rn ∨ site = .augAssign true ln rn) ∧
        ∃ lp rp,
          partsFromNode fr ln
            (some (if isLeft then .fstr self else other.toPart)) = .ok lp ∧
          partsFromNode fr rn
            (some (if isLeft then other.toPart else .fstr self)) = .ok rp ∧
          g.parts = lp ++ rp)
     ∨ g.parts = [(if isLeft then .fstr self else other.toPart),
                  (if isLeft then other.toPart else .fstr self)]) := by
  have htext : ∀ {v : Str} {ps : List FPart}, mkF v ps = .ok g →
      g.text = v ∧ g.parts = ps := by
    intro v ps hm
    obtain ⟨rfl, -⟩ := mkF_ok hm
    exact ⟨rfl, rfl⟩
  have hval : ((if isLeft then Operand.ofobj self else other).text ++
      (if isLeft then other else Operand.ofobj self).text) =
      (if isLeft then self.text ++ other.text
       else other.text ++ self.text) := by
    cases isLeft <;> simp [Operand.text]
  have hpart : ∀ (o : Operand), o.toPart = (Operand.toPart o) := fun _ => rfl
  cases site with
  | noNode =>
      simp only [FAdd] at h
      obtain ⟨h1, h2⟩ := htext h
      refine ⟨by rw [h1, hval], Or.inr ?_⟩
      rw [h2]
      cases isLeft <;> simp [Operand.toPart]
  | otherNode =>
      simp only [FAdd] at h
      obtain ⟨h1, h2⟩ := htext h
      refine ⟨by rw [h1, hval], Or.inr ?_⟩
      rw [h2]
      cases isLeft <;> simp [Operand.toPart]
  | binOp b ln rn =>
      cases b with
      | false =>
          simp only [FAdd] at h
          obtain ⟨h1, h2⟩ := htext h
          refine ⟨by rw [h1, hval], Or.inr ?_⟩
          rw [h2]
          cases isLeft <;> simp [Operand.toPart]
      | true =>
          simp only [FAdd] at h
          obtain ⟨lp, hl, h1⟩ := exceptBind_ok h
          obtain ⟨rp, hr, h2⟩ := exceptBind_ok h1
          obtain ⟨ht, hp⟩ := htext h2
          refine ⟨by rw [ht, hval], Or.inl ⟨ln, rn, Or.inl rfl, lp, rp,
            ?_, ?_, hp⟩⟩
          · rw [← hl]
            cases isLeft <;> rfl
          · rw [← hr]
            cases isLeft <;> rfl
  | augAssign b ln rn =>
      cases b with
      | false =>
          simp only [FAdd] at h
          obtain ⟨h1, h2⟩ := htext h
          refine ⟨by rw [h1, hval], Or.inr ?_⟩
          rw [h2]
          cases isLeft <;> simp [Operand.toPart]
      | true =>
          simp only [FAdd] at h
          obtain ⟨lp, hl, h1⟩ := exceptBind_ok h
          obtain ⟨rp, hr, h2⟩ := exceptBind_ok h1
          obtain ⟨ht, hp⟩ := htext h2
          refine ⟨by rw [ht, hval], Or.inl ⟨ln, rn, Or.inr rfl, lp, rp,
            ?_, ?_, hp⟩⟩
          · rw [← hl]
            cases isLeft <;> rfl
          · rw [← hr]
            cases isLeft <;> rfl

/-- Closed witness for C3: `F("hello ") + "world"` on the fallback path
(no enclosing addition node). -/
theorem C3_add_text_and_order_witness :
    (FObj.text (.mk (chars "hello world")
      [.fstr (.mk (chars "hello ") [.lit (chars "hello ")]),
       .lit (chars "world")])) = chars "hello " ++ chars "world" :=
  (C3_add_text_and_order (.mk (chars "hello ") [.lit (chars "hello ")])
    (.ostr (chars "world")) true .noNode noFrame _ rfl).1

theorem pyLStrip_concat_nil {cs : Char → Bool} {pre : List FPart}
    (h : ∀ p ∈ pre, pyLStrip cs p.surface = []) :
    pyLStrip cs (concatSurfaces pre) = [] := by
  rw [pyLStrip_eq_nil_iff]
  intro c hc
  simp only [concatSurfaces, List.mem_flatten, List.mem_map] at hc
  obtain ⟨l, ⟨p, hp, rfl⟩, hcl⟩ := hc
  exact (pyLStrip_eq_nil_iff.mp (h p hp)) c hcl

theorem pyRStrip_concat_nil {cs : Char → Bool} {post : List FPart}
    (h : ∀ p ∈ post, pyRStrip cs p.surface = []) :
    pyRStrip cs (concatSurfaces post) = [] := by
  rw [pyRStrip_eq_nil_iff]
  intro c hc
  simp only [concatSurfaces, List.mem_flatten, List.mem_map] at hc
  obtain ⟨l, ⟨p, hp, rfl⟩, hcl⟩ := hc
  exact (pyRStrip_eq_nil_iff.mp (h p hp)) c hcl

theorem lstripParts_skip {cs : Char → Bool} {pre : List FPart}
    (h : ∀ p ∈ pre, isPlainPart p = true ∧ pyLStrip cs p.surface = [])
    (l : List FPart) : lstripParts cs (pre ++ l) = lstripParts cs l := by
  induction pre with
  | nil => rfl
  | cons p pre ih =>
      obtain ⟨hf, hs⟩ := h p (by simp)
      have ih' := ih (fun q hq => h q (by simp [hq]))
      cases p with
      | fstr g => simp [isPlainPart] at hf
      | lit s =>
          simp only [FPart.surface] at hs
          simp only [List.cons_append, lstripParts, hs, List.isEmpty_nil,
            if_true]
          exact ih'
      | fvalue src v fmt =>
          cases fmt with
          | pf g => simp [isPlainPart] at hf
          | pstr s =>
              simp only [FPart.surface, PyStr.text] at hs
              simp only [List.cons_append, lstripParts, hs, List.isEmpty_nil,
                if_true]
              exact ih'

theorem lstripParts_boundary_pstr {cs : Char → Bool} {src fmt rem : Str}
    {v : PyVal} (rest : List FPart) (hrem : pyLStrip cs fmt = rem)
    (hne : rem ≠ []) :
    lstripParts cs (.fvalue src v (.pstr fmt) :: rest) =
      .ok (.fvalue src v (.pstr rem) :: rest) := by
  simp only [lstripParts, hrem]
  rw [if_neg (by simpa [List.isEmpty_iff] using hne)]

theorem lstripParts_cons_pf (cs : Char → Bool) (src : Str) (v : PyVal)
    (g : FObj) (ps : List FPart) :
    lstripParts cs (.fvalue src v (.pf g) :: ps) =
      (lstripF cs g) >>= fun g2 =>
        if g2.text.isEmpty then lstripParts cs ps
        else .ok (.fvalue src v (.pf g2) :: ps) := rfl

theorem lstripParts_boundary_pf {cs : Char → Bool} {src : Str} {v : PyVal}
    {g g2 : FObj} (rest : List FPart) (hg : lstripF cs g = .ok g2)
    (hne : g2.text ≠ []) :
    lstripParts cs (.fvalue src v (.pf g) :: rest) =
      .ok (.fvalue src v (.pf g2) :: rest) := by
  rw [lstripParts_cons_pf, hg]
  show (if g2.text.isEmpty then lstripParts cs rest
    else .ok (.fvalue src v (.pf g2) :: rest)) = _
  rw [if_neg (by simpa [List.isEmpty_iff] using hne)]

theorem lstripF_ok_text {cs : Char → Bool} {g g2 : FObj}
    (h : lstripF cs g = .ok g2) : g2.text = pyLStrip cs g.text := by
  obtain ⟨t, ps⟩ := g
  simp only [lstripF] at h
  obtain ⟨qs, -, hm⟩ := exceptBind_ok h
  obtain ⟨rfl, -⟩ := mkF_ok hm
  rfl

theorem rstripScan_all_trim {cs : Char → Bool} {post : List FPart}
    (h : ∀ p ∈ post, isPlainPart p = true ∧ pyRStrip cs p.surface = []) :
    rstripScan cs post = .ok none := by
  induction post with
  | nil => rfl
  | cons p post ih =>
      obtain ⟨hf, hs⟩ := h p (by simp)
      have ih' := ih (fun q hq => h q (by simp [hq]))
      rw [rstripScan_cons_none p ih']
      cases p with
      | fstr g => simp [isPlainPart] at hf
      | lit s =>
          simp only [FPart.surface] at hs
          simp [rstripStep, hs]
      | fvalue src v fmt =>
          cases fmt with
          | pf g => simp [isPlainPart] at hf
          | pstr s =>
              simp only [FPart.surface, PyStr.text] at hs
              simp [rstripStep, hs]

theorem rstripScan_append_none {cs : Char → Bool} {post : List FPart}
    (h : rstripScan cs post = .ok none) (l : List FPart) :
    rstripScan cs (l ++ post) = rstripScan cs l := by
  induction l with
  | nil => simpa using h
  | cons p l ih =>
      rw [List.cons_append, rstripScan_cons, ih, rstripScan_cons]

theorem rstripScan_boundary_pstr {cs : Char → Bool} {src fmt rem : Str}
    {v : PyVal} (rest : List FPart) (hrem : pyRStrip cs fmt = rem)
    (hne : rem ≠ []) :
    rstripScan cs (rest ++ [.fvalue src v (.pstr fmt)]) =
      .ok (some (rest ++ [.fvalue src v (.pstr rem)])) := by
  induction rest with
  | nil =>
      rw [List.nil_append,
        rstripScan_cons_none _ (rfl : rstripScan cs [] = .ok none)]
      simp only [rstripStep, hrem]
      rw [if_neg (by simpa [List.isEmpty_iff] using hne)]
      simp
  | cons p rest ih =>
      rw [List.cons_append, rstripScan_cons_some p ih]
      simp

theorem rstripStep_pf (cs : Char → Bool) (src : Str) (v : PyVal) (g : FObj) :
    rstripStep cs (.fvalue src v (.pf g)) =
      (rstripF cs g) >>= fun g2 =>
        if g2.text.isEmpty then .ok none
        else .ok (some [.fvalue src v (.pf g2)]) := rfl

theorem rstripF_ok_text {cs : Char → Bool} {g g2 : FObj}
    (h : rstripF cs g = .ok g2) : g2.text = pyRStrip cs g.text := by
  obtain ⟨t, ps⟩ := g
  simp only [rstripF] at h
  obtain ⟨o, -, hm⟩ := exceptBind_ok h
  cases o with
  | none => simp at hm
  | some qs =>
      obtain ⟨rfl, -⟩ := mkF_ok hm
      rfl

theorem rstripScan_boundary_pf {cs : Char → Bool} {src : Str} {v : PyVal}
    {g g2 : FObj} (rest : List FPart) (hg : rstripF cs g = .ok g2)
    (hne : g2.text ≠ []) :
    rstripScan cs (rest ++ [.fvalue src v (.pf g)]) =
      .ok (some (rest ++ [.fvalue src v (.pf g2)])) := by
  induction rest with
  | nil =>
      rw [List.nil_append,
        rstripScan_cons_none _ (rfl : rstripScan cs [] = .ok none),
        rstripStep_pf, hg]
      show (if g2.text.isEmpty then Except.ok none
          else Except.ok (some [FPart.fvalue src v (PyStr.pf g2)])) =
        Except.ok (some (([] : List FPart) ++
          [FPart.fvalue src v (PyStr.pf g2)]))
      rw [if_neg (by simpa [List.isEmpty_iff] using hne)]
      simp
  | cons p rest ih =>
      rw [List.cons_append, rstripScan_cons_some p ih]
      simp

/-- C7: when a boundary Formatted-Value part is partially trimmed by
lstrip (resp. rstrip, and hence by strip, which is their composition), the
resulting part keeps `source` and `value` unchanged and only `formatted`
changes to the non-empty remainder, and every part other than the removed
and trimmed boundary parts appears unchanged in the result.  Both runtime
types of `formatted` are covered: a plain `str` is trimmed textually, and
an `F` is recursively stripped (`getattr` dispatch), its non-empty
remainder keeping its own parts.  `pre` (resp. `post`) are the
fully-trimmed-away boundary parts; only plain-surface parts can be deleted
(a recursively stripped `F` surface either raises or survives non-empty),
so they are lit parts or plain-`str` Formatted-Value parts. -/
theorem C7_boundary_trim_preserves_provenance (cs : Char → Bool) :
    (∀ (pre rest : List FPart) (src fmt rem : Str) (v : PyVal),
        (∀ p ∈ pre, isPlainPart p = true ∧ pyLStrip cs p.surface = []) →
        pyLStrip cs fmt = rem → rem ≠ [] →
        lstripF cs
            (.mk (concatSurfaces (pre ++ .fvalue src v (.pstr fmt) :: rest))
              (pre ++ .fvalue src v (.pstr fmt) :: rest)) =
          .ok (.mk (rem ++ concatSurfaces rest)
            (.fvalue src v (.pstr rem) :: rest)))
  ∧ (∀ (pre rest : List FPart) (src : Str) (v : PyVal) (g g2 : FObj),
        (∀ p ∈ pre, isPlainPart p = true ∧ pyLStrip cs p.surface = []) →
        lstripF cs g = .ok g2 → g2.text ≠ [] →
        lstripF cs
            (.mk (concatSurfaces (pre ++ .fvalue src v (.pf g) :: rest))
              (pre ++ .fvalue src v (.pf g) :: rest)) =
          .ok (.mk (g2.text ++ concatSurfaces rest)
            (.fvalue src v (.pf g2) :: rest)))
  ∧ (∀ (rest post : List FPart) (src fmt rem : Str) (v : PyVal),
        (∀ p ∈ post, isPlainPart p = true ∧ pyRStrip cs p.surface = []) →
        pyRStrip cs fmt = rem → rem ≠ [] →
        rstripF cs
            (.mk (concatSurfaces (rest ++ .fvalue src v (.pstr fmt) :: post))
              (rest ++ .fvalue src v (.pstr fmt) :: post)) =
          .ok (.mk (concatSurfaces rest ++ rem)
            (rest ++ [.fvalue src v (.pstr rem)])))
  ∧ (∀ (rest post : List FPart) (src : Str) (v : PyVal) (g g2 : FObj),
        (∀ p ∈ post, isPlainPart p = true ∧ pyRStrip cs p.surface = []) →
        rstripF cs g = .ok g2 → g2.text ≠ [] →
        rstripF cs
            (.mk (concatSurfaces (rest ++ .fvalue src v (.pf g) :: post))
              (rest ++ .fvalue src v (.pf g) :: post)) =
          .ok (.mk (concatSurfaces rest ++ g2.text)
            (rest ++ [.fvalue src v (.pf g2)]))) := by
  refine ⟨?_, ?_, ?_, ?_⟩
  · intro pre rest src fmt rem v hpre hrem hne
    have hscan : lstripParts cs (pre ++ .fvalue src v (.pstr fmt) :: rest) =
        .ok (.fvalue src v (.pstr rem) :: rest) := by
      rw [lstripParts_skip hpre, lstripParts_boundary_pstr rest hrem hne]
    have htext : pyLStrip cs
        (concatSurfaces (pre ++ .fvalue src v (.pstr fmt) :: rest)) =
        rem ++ concatSurfaces rest := by
      rw [concatSurfaces_append, concatSurfaces_cons]
      have h1 : pyLStrip cs (concatSurfaces pre) = [] :=
        pyLStrip_concat_nil (fun p hp => (hpre p hp).2)
      rw [pyLStrip_append_empty _ h1]
      have h2 : pyLStrip cs fmt ≠ [] := by rw [hrem]; exact hne
      show pyLStrip cs ((FPart.fvalue src v (.pstr fmt)).surface ++
        concatSurfaces rest) = rem ++ concatSurfaces rest
      simp only [FPart.surface, PyStr.text]
      rw [pyLStrip_append_ne _ h2, hrem]
    have hchk : concatSurfaces (.fvalue src v (.pstr rem) :: rest) =
        rem ++ concatSurfaces rest := by
      rw [concatSurfaces_cons]
      rfl
    simp only [lstripF, hscan, htext]
    simp only [Bind.bind, Except.bind, mkF_ok_of hchk]
  · intro pre rest src v g g2 hpre hg hne
    have hrem : pyLStrip cs g.text = g2.text := (lstripF_ok_text hg).symm
    have hscan : lstripParts cs (pre ++ .fvalue src v (.pf g) :: rest) =
        .ok (.fvalue src v (.pf g2) :: rest) := by
      rw [lstripParts_skip hpre, lstripParts_boundary_pf rest hg hne]
    have htext : pyLStrip cs
        (concatSurfaces (pre ++ .fvalue src v (.pf g) :: rest)) =
        g2.text ++ concatSurfaces rest := by
      rw [concatSurfaces_append, concatSurfaces_cons]
      have h1 : pyLStrip cs (concatSurfaces pre) = [] :=
        pyLStrip_concat_nil (fun p hp => (hpre p hp).2)
      rw [pyLStrip_append_empty _ h1]
      have h2 : pyLStrip cs g.text ≠ [] := by rw [hrem]; exact hne
      show pyLStrip cs ((FPart.fvalue src v (.pf g)).surface ++
        concatSurfaces rest) = g2.text ++ concatSurfaces rest
      simp only [FPart.surface, PyStr.text]
      rw [pyLStrip_append_ne _ h2, hrem]
    have hchk : concatSurfaces (.fvalue src v (.pf g2) :: rest) =
        g2.text ++ concatSurfaces rest := by
      rw [concatSurfaces_cons]
      rfl
    simp only [lstripF, hscan, htext]
    simp only [Bind.bind, Except.bind, mkF_ok_of hchk]
  · intro rest post src fmt rem v hpost hrem hne
    have hscan : rstripScan cs (rest ++ .fvalue src v (.pstr fmt) :: post) =
        .ok (some (rest ++ [.fvalue src v (.pstr rem)])) := by
      have hsplit : rest ++ FPart.fvalue src v (.pstr fmt) :: post =
          (rest ++ [.fvalue src v (.pstr fmt)]) ++ post := by simp
      rw [hsplit, rstripScan_append_none (rstripScan_all_trim hpost),
        rstripScan_boundary_pstr rest hrem hne]
    have htext : pyRStrip cs
        (concatSurfaces (rest ++ .fvalue src v (.pstr fmt) :: post)) =
        concatSurfaces rest ++ rem := by
      rw [concatSurfaces_append, concatSurfaces_cons]
      have h1 : pyRStrip cs (concatSurfaces post) = [] :=
        pyRStrip_concat_nil (fun p hp => (hpost p hp).2)
      have h2 : pyRStrip cs fmt ≠ [] := by rw [hrem]; exact hne
      show pyRStrip cs (concatSurfaces rest ++
        ((FPart.fvalue src v (.pstr fmt)).surface ++ concatSurfaces post)) =
        concatSurfaces rest ++ rem
      simp only [FPart.surface, PyStr.text]
      rw [← List.append_assoc, pyRStrip_append_empty _ h1,
        pyRStrip_append_ne _ h2, hrem]
    have hchk : concatSurfaces (rest ++ [.fvalue src v (.pstr rem)]) =
        concatSurfaces rest ++ rem := by
      rw [concatSurfaces_append, concatSurfaces_cons, concatSurfaces_nil]
      simp [FPart.surface, PyStr.text]
    simp only [rstripF, hscan, htext]
    simp only [Bind.bind, Except.bind, mkF_ok_of hchk]
  · intro rest post src v g g2 hpost hg hne
    have hrem : pyRStrip cs g.text = g2.text := (rstripF_ok_text hg).symm
    have hscan : rstripScan cs (rest ++ .fvalue src v (.pf g) :: post) =
        .ok (some (rest ++ [.fvalue src v (.pf g2)])) := by
      have hsplit : rest ++ FPart.fvalue src v (.pf g) :: post =
          (rest ++ [.fvalue src v (.pf g)]) ++ post := by simp
      rw [hsplit, rstripScan_append_none (rstripScan_all_trim hpost),
        rstripScan_boundary_pf rest hg hne]
    have htext : pyRStrip cs
        (concatSurfaces (rest ++ .fvalue src v (.pf g) :: post)) =
        concatSurfaces rest ++ g2.text := by
      rw [concatSurfaces_append, concatSurfaces_cons]
      have h1 : pyRStrip cs (concatSurfaces post) = [] :=
        pyRStrip_concat_nil (fun p hp => (hpost p hp).2)
      have h2 : pyRStrip cs g.text ≠ [] := by rw [hrem]; exact hne
      show pyRStrip cs (concatSurfaces rest ++
        ((FPart.fvalue src v (.pf g)).surface ++ concatSurfaces post)) =
        concatSurfaces rest ++ g2.text
      simp only [FPart.surface, PyStr.text]
      rw [← List.append_assoc, pyRStrip_append_empty _ h1,
        pyRStrip_append_ne _ h2, hrem]
    have hchk : concatSurfaces (rest ++ [.fvalue src v (.pf g2)]) =
        concatSurfaces rest ++ g2.text := by
      rw [concatSurfaces_append, concatSurfaces_cons, concatSurfaces_nil]
      simp [FPart.surface, PyStr.text]
    simp only [rstripF, hscan, htext]
    simp only [Bind.bind, Except.bind, mkF_ok_of hchk]

/-- Closed witness for C7: lstrip and rstrip with a plain-`str` boundary
Formatted-Value part, and lstrip and rstrip with an `F`-valued `formatted`
(the shape `_parts_from_node` builds for addition operands), each keeping
`source` and `value` with only `formatted` trimmed. -/
theorem C7_boundary_trim_preserves_provenance_witness :
    lstripF pyWS (.mk (chars "  a!")
        [.lit (chars " "),
         .fvalue (chars "e") (.vraw 0) (.pstr (chars " a")),
         .lit (chars "!")]) =
      .ok (.mk (chars "a!")
        [.fvalue (chars "e") (.vraw 0) (.pstr (chars "a")),
         .lit (chars "!")])
  ∧ rstripF pyWS (.mk (chars "!a  ")
        [.lit (chars "!"),
         .fvalue (chars "e") (.vraw 0) (.pstr (chars "a ")),
         .lit (chars " ")]) =
      .ok (.mk (chars "!a")
        [.lit (chars "!"),
         .fvalue (chars "e") (.vraw 0) (.pstr (chars "a"))])
  ∧ lstripF pyWS (.mk (chars " x!")
        [.fvalue (chars "e") (.vraw 0)
           (.pf (.mk (chars " x") [.lit (chars " x")])),
         .lit (chars "!")]) =
      .ok (.mk (chars "x!")
        [.fvalue (chars "e") (.vraw 0)
           (.pf (.mk (chars "x") [.lit (chars "x")])),
         .lit (chars "!")])
  ∧ rstripF pyWS (.mk (chars "!x ")
        [.lit (chars "!"),
         .fvalue (chars "e") (.vraw 0)
           (.pf (.mk (chars "x ") [.lit (chars "x ")]))]) =
      .ok (.mk (chars "!x")
        [.lit (chars "!"),
         .fvalue (chars "e") (.vraw 0)
           (.pf (.mk (chars "x") [.lit (chars "x")]))]) := by
  refine ⟨?_, ?_, ?_, ?_⟩
  · exact (C7_boundary_trim_preserves_provenance pyWS).1
      [.lit (chars " ")] [.lit (chars "!")] (chars "e") (chars " a")
      (chars "a") (.vraw 0) (by decide) (by decide) (by decide)
  · exact (C7_boundary_trim_preserves_provenance pyWS).2.2.1
      [.lit (chars "!")] [.lit (chars " ")] (chars "e") (chars "a ")
      (chars "a") (.vraw 0) (by decide) (by decide) (by decide)
  · exact (C7_boundary_trim_preserves_provenance pyWS).2.1
      [] [.lit (chars "!")] (chars "e") (.vraw 0)
      (.mk (chars " x") [.lit (chars " x")])
      (.mk (chars "x") [.lit (chars "x")])
      (by simp) (by rfl) (by decide)
  · exact (C7_boundary_trim_preserves_provenance pyWS).2.2.2
      [.lit (chars "!")] [] (chars "e") (.vraw 0)
      (.mk (chars "x ") [.lit (chars "x ")])
      (.mk (chars "x") [.lit (chars "x")])
      (by simp) (by rfl) (by decide)

theorem mem_concatSurfaces {c : Char} {p : FPart} {ps : List FPart}
    (hp : p ∈ ps) (hc : c ∈ p.surface) : c ∈ concatSurfaces ps := by
  simp only [concatSurfaces, List.mem_flatten, List.mem_map]
  exact ⟨p.surface, ⟨p, hp, rfl⟩, hc⟩

theorem pyLStrip_surface_nil {cs : Char → Bool} {ps : List FPart}
    (h : pyLStrip cs (concatSurfaces ps) = []) :
    ∀ p ∈ ps, pyLStrip cs p.surface = [] := by
  intro p hp
  rw [pyLStrip_eq_nil_iff] at h ⊢
  exact fun c hc => h c (mem_concatSurfaces hp hc)

theorem pyRStrip_surface_nil {cs : Char → Bool} {ps : List FPart}
    (h : pyRStrip cs (concatSurfaces ps) = []) :
    ∀ p ∈ ps, pyRStrip cs p.surface = [] := by
  intro p hp
  rw [pyRStrip_eq_nil_iff] at h ⊢
  exact fun c hc => h c (mem_concatSurfaces hp hc)

theorem lstrip_scan_total {cs : Char → Bool} :
    ∀ (ps : List FPart), (∀ p ∈ ps, isPlainPart p = true) →
    pyLStrip cs (concatSurfaces ps) ≠ [] →
    ∃ qs, lstripParts cs ps = .ok qs ∧
      concatSurfaces qs = pyLStrip cs (concatSurfaces ps) := by
  intro ps
  induction ps with
  | nil => intro _ hne; exact absurd rfl hne
  | cons p ps ih =>
      intro hpl hne
      have hconc : concatSurfaces (p :: ps) = p.surface ++ concatSurfaces ps :=
        concatSurfaces_cons p ps
      cases p with
      | fstr g => simpa [isPlainPart] using hpl (.fstr g) (by simp)
      | lit s =>
          by_cases hs : pyLStrip cs s = []
          · have hrest : pyLStrip cs (concatSurfaces (.lit s :: ps)) =
                pyLStrip cs (concatSurfaces ps) := by
              rw [hconc]
              exact pyLStrip_append_empty _ hs
            rw [hrest] at hne
            obtain ⟨qs, h1, h2⟩ := ih (fun q hq => hpl q (by simp [hq])) hne
            refine ⟨qs, ?_, by rw [h2, hrest]⟩
            simpa only [lstripParts, FPart.surface, hs, List.isEmpty_nil,
              if_true] using h1
          · refine ⟨.lit (pyLStrip cs s) :: ps, ?_, ?_⟩
            · simp only [lstripParts]
              rw [if_neg (by simpa [List.isEmpty_iff] using hs)]
            · rw [concatSurfaces_cons, hconc]
              show pyLStrip cs s ++ concatSurfaces ps =
                pyLStrip cs (s ++ concatSurfaces ps)
              rw [pyLStrip_append_ne _ hs]
      | fvalue src v fmt =>
          cases fmt with
          | pf g =>
              simpa [isPlainPart] using
                hpl (.fvalue src v (.pf g)) (by simp)
          | pstr s =>
              by_cases hs : pyLStrip cs s = []
              · have hrest : pyLStrip cs
                    (concatSurfaces (.fvalue src v (.pstr s) :: ps)) =
                    pyLStrip cs (concatSurfaces ps) := by
                  rw [hconc]
                  exact pyLStrip_append_empty _ hs
                rw [hrest] at hne
                obtain ⟨qs, h1, h2⟩ := ih (fun q hq => hpl q (by simp [hq])) hne
                refine ⟨qs, ?_, by rw [h2, hrest]⟩
                simpa only [lstripParts, FPart.surface, hs, List.isEmpty_nil,
                  if_true] using h1
              · refine ⟨.fvalue src v (.pstr (pyLStrip cs s)) :: ps, ?_, ?_⟩
                · simp only [lstripParts]
                  rw [if_neg (by simpa [List.isEmpty_iff] using hs)]
                · rw [concatSurfaces_cons, hconc]
                  show pyLStrip cs s ++ concatSurfaces ps =
                    pyLStrip cs ((FPart.fvalue src v (.pstr s)).surface ++
                      concatSurfaces ps)
                  simp only [FPart.surface, PyStr.text]
                  rw [pyLStrip_append_ne _ hs]

theorem rstrip_scan_total {cs : Char → Bool} :
    ∀ (ps : List FPart), (∀ p ∈ ps, isPlainPart p = true) →
    pyRStrip cs (concatSurfaces ps) ≠ [] →
    ∃ qs, rstripScan cs ps = .ok (some qs) ∧
      concatSurfaces qs = pyRStrip cs (concatSurfaces ps) := by
  intro ps
  induction ps with
  | nil => intro _ hne; exact absurd rfl hne
  | cons p ps ih =>
      intro hpl hne
      have hconc : concatSurfaces (p :: ps) = p.surface ++ concatSurfaces ps :=
        concatSurfaces_cons p ps
      by_cases hrest : pyRStrip cs (concatSurfaces ps) = []
      · have hsc : rstripScan cs ps = .ok none := by
          apply rstripScan_all_trim
          intro q hq
          exact ⟨hpl q (by simp [hq]), pyRStrip_surface_nil hrest q hq⟩
        have hstep := rstripScan_cons_none p hsc
        have htext : pyRStrip cs (concatSurfaces (p :: ps)) =
            pyRStrip cs p.surface := by
          rw [hconc]
          exact pyRStrip_append_empty _ hrest
        rw [htext] at hne
        cases p with
        | fstr g => simpa [isPlainPart] using hpl (.fstr g) (by simp)
        | lit s =>
            refine ⟨[.lit (pyRStrip cs s)], ?_, ?_⟩
            · rw [hstep]
              simp only [rstripStep, FPart.surface] at hne ⊢
              rw [if_neg (by simpa [List.isEmpty_iff] using hne)]
            · rw [htext]
              simp [concatSurfaces, FPart.surface]
        | fvalue src v fmt =>
            cases fmt with
            | pf g =>
                simpa [isPlainPart] using
                  hpl (.fvalue src v (.pf g)) (by simp)
            | pstr s =>
                refine ⟨[.fvalue src v (.pstr (pyRStrip cs s))], ?_, ?_⟩
                · rw [hstep]
                  simp only [rstripStep, FPart.surface, PyStr.text] at hne ⊢
                  rw [if_neg (by simpa [List.isEmpty_iff] using hne)]
                · rw [htext]
                  simp [concatSurfaces, FPart.surface, PyStr.text]
      · obtain ⟨qs, h1, h2⟩ := ih (fun q hq => hpl q (by simp [hq])) hrest
        refine ⟨p :: qs, rstripScan_cons_some p h1, ?_⟩
        rw [concatSurfaces_cons, hconc, pyRStrip_append_ne _ hrest, h2]

/-- C10: the claim fails on this code.  A Provenance String satisfying
Invariant I1 whose trimmed text is non-empty can still make the boundary
scan reach the part-list-exhausted `parts[index]` access: wherever the
boundary surface is an `F` — a part that is itself an `F`, or a
Formatted-Value part whose `formatted` is an `F` (the shape
`_parts_from_node` builds for addition operands) — `getattr(s, method)`
recurses, and the nested scan can exhaust its own part list and raise
`IndexError`.  First instance: `F("x", (F("", ()), "x")).lstrip()`.
Second instance: `t = "a" + F(f"{x}")` with `x = " "` at a resolved
addition site (reproduced here through the model's own `FAdd`) has no `F`
part at all, satisfies I1, and `t.text.rstrip()` is `"a"`, yet
`t.rstrip()` raises `IndexError` from the nested scan. -/
theorem C10_nested_part_scan_escape :
    (reconOK (.mk (chars "x") [.fstr (.mk [] []), .lit (chars "x")])
      ∧ pyLStrip pyWS (chars "x") ≠ []
      ∧ lstripF pyWS (.mk (chars "x") [.fstr (.mk [] []), .lit (chars "x")]) =
          .error .indexError)
  ∧ (FAdd (.mk (chars " ")
        [.fvalue (chars "x") (.vstr (chars " ")) (.pstr (chars " "))])
      (.ostr (chars "a")) false
      (.binOp true (.constant (chars "a")) (.other (chars "rhs"))) noFrame =
        .ok (.mk (chars "a ")
          [.lit (chars "a"),
           .fvalue (chars "rhs")
             (.vf (.mk (chars " ")
               [.fvalue (chars "x") (.vstr (chars " ")) (.pstr (chars " "))]))
             (.pf (.mk (chars " ")
               [.fvalue (chars "x") (.vstr (chars " ")) (.pstr (chars " "))]))])
      ∧ reconOK (.mk (chars "a ")
          [.lit (chars "a"),
           .fvalue (chars "rhs")
             (.vf (.mk (chars " ")
               [.fvalue (chars "x") (.vstr (chars " ")) (.pstr (chars " "))]))
             (.pf (.mk (chars " ")
               [.fvalue (chars "x") (.vstr (chars " ")) (.pstr (chars " "))]))])
      ∧ (∀ p ∈ [FPart.lit (chars "a"),
           FPart.fvalue (chars "rhs")
             (.vf (.mk (chars " ")
               [.fvalue (chars "x") (.vstr (chars " ")) (.pstr (chars " "))]))
             (.pf (.mk (chars " ")
               [.fvalue (chars "x") (.vstr (chars " ")) (.pstr (chars " "))]))],
           p.isFstr = false)
      ∧ pyRStrip pyWS (chars "a ") ≠ []
      ∧ rstripF pyWS (.mk (chars "a ")
          [.lit (chars "a"),
           .fvalue (chars "rhs")
             (.vf (.mk (chars " ")
               [.fvalue (chars "x") (.vstr (chars " ")) (.pstr (chars " "))]))
             (.pf (.mk (chars " ")
               [.fvalue (chars "x") (.vstr (chars " ")) (.pstr (chars " "))]))]) =
          .error .indexError) :=
  ⟨⟨rfl, by decide, rfl⟩, rfl, rfl, by decide, by decide, rfl⟩

/-- C10 amended: for every Provenance String satisfying Invariant I1
*all of whose parts have plain-`str` surfaces* (no part is itself a nested
Provenance String, and no Formatted-Value part's `formatted` is one), and
every charset whose trim leaves the text non-empty, the boundary scan of
lstrip (symmetrically rstrip) never reaches the part-list-exhausted case:
it stops at a part with a non-empty remainder within the list and the
whole operation succeeds. -/
theorem C10_scan_in_bounds (cs : Char → Bool) (t : Str) (ps : List FPart)
    (hrec : concatSurfaces ps = t) (hpl : ∀ p ∈ ps, isPlainPart p = true) :
    (pyLStrip cs t ≠ [] →
      ∃ qs, lstripParts cs ps = .ok qs ∧
        lstripF cs (.mk t ps) = .ok (.mk (pyLStrip cs t) qs))
  ∧ (pyRStrip cs t ≠ [] →
      ∃ qs, rstripScan cs ps = .ok (some qs) ∧
        rstripF cs (.mk t ps) = .ok (.mk (pyRStrip cs t) qs)) := by
  subst hrec
  constructor
  · intro hne
    obtain ⟨qs, h1, h2⟩ := lstrip_scan_total ps hpl hne
    refine ⟨qs, h1, ?_⟩
    simp only [lstripF, h1]
    simp only [Bind.bind, Except.bind, mkF_ok_of h2]
  · intro hne
    obtain ⟨qs, h1, h2⟩ := rstrip_scan_total ps hpl hne
    refine ⟨qs, h1, ?_⟩
    simp only [rstripF, h1]
    simp only [Bind.bind, Except.bind, mkF_ok_of h2]

/-- Closed witness for the amended C10 at `F(" a ", (" ", "a "))`. -/
theorem C10_scan_in_bounds_witness :
    (∃ qs, lstripParts pyWS [.lit (chars " "), .lit (chars "a ")] = .ok qs ∧
      lstripF pyWS (.mk (chars " a ") [.lit (chars " "), .lit (chars "a ")]) =
        .ok (.mk (chars "a ") qs))
  ∧ (∃ qs, rstripScan pyWS [.lit (chars " "), .lit (chars "a ")] =
        .ok (some qs) ∧
      rstripF pyWS (.mk (chars " a ") [.lit (chars " "), .lit (chars "a ")]) =
        .ok (.mk (chars " a") qs)) := by
  have h := C10_scan_in_bounds pyWS (chars " a ")
    [.lit (chars " "), .lit (chars "a ")] (by decide) (by decide)
  exact ⟨h.1 (by decide), h.2 (by decide)⟩

mutual

/-- Deep well-formedness: this object and every `F` nested inside its
parts (as a part or as an `FValue.value`) reconstructs (Invariant I1).
Every `F` that can exist in the Python program has this property, since
each one passed the assert of `F.__new__` when it was created. -/
def wfF : FObj → Bool
  | .mk t ps => decide (concatSurfaces ps = t) && wfParts ps

def wfParts : List FPart → Bool
  | [] => true
  | p :: ps => wfPart p && wfParts ps

def wfPart : FPart → Bool
  | .lit _ => true
  | .fstr g => wfF g
  | .fvalue _ v _ => wfVal v

def wfVal : PyVal → Bool
  | .vf g => wfF g
  | _ => true

end

mutual

/-- Flatten safety: every Formatted-Value part (at any depth) whose value
is a nested `F` displays exactly that nested string's text (`formatted =
value.text`).  `F.flatten` replaces such a part by the nested parts, whose
surfaces concatenate to `value.text`, so this is what the re-entered
constructor's assert needs. -/
def flatSafeF : FObj → Bool
  | .mk _ ps => flatSafeParts ps

def flatSafeParts : List FPart → Bool
  | [] => true
  | p :: ps => flatSafePart p && flatSafeParts ps

def flatSafePart : FPart → Bool
  | .lit _ => true
  | .fstr g => flatSafeF g
  | .fvalue _ (.vf g) fmt => decide (fmt.text = g.text) && flatSafeF g
  | .fvalue _ _ _ => true

end

/-- A part is flat when it is not itself an `F` and does not carry an `F`
as an `FValue.value` — the shape `flatten` guarantees for every part of
its result. -/
def isFlatPart : FPart → Bool
  | .fstr _ => false
  | .fvalue _ (.vf _) _ => false
  | _ => true

theorem flattenF_mk (t : Str) (ps : List FPart) :
    flattenF (.mk t ps) = (flattenParts ps) >>= fun qs => mkF t qs := rfl

theorem flattenParts_cons_lit (s : Str) (ps : List FPart) :
    flattenParts (.lit s :: ps) =
      (flattenParts ps) >>= fun rest => .ok (.lit s :: rest) := rfl

theorem flattenParts_cons_vstr (src x : Str) (fmt : PyStr) (ps : List FPart) :
    flattenParts (.fvalue src (.vstr x) fmt :: ps) =
      (flattenParts ps) >>= fun rest =>
        .ok (.fvalue src (.vstr x) fmt :: rest) := rfl

theorem flattenParts_cons_vraw (src : Str) (n : Nat) (fmt : PyStr)
    (ps : List FPart) :
    flattenParts (.fvalue src (.vraw n) fmt :: ps) =
      (flattenParts ps) >>= fun rest =>
        .ok (.fvalue src (.vraw n) fmt :: rest) := rfl

theorem flattenParts_cons_vf (src : Str) (g : FObj) (fmt : PyStr)
    (ps : List FPart) :
    flattenParts (.fvalue src (.vf g) fmt :: ps) =
      (flattenF g) >>= fun gf => (flattenParts ps) >>= fun rest =>
        .ok (gf.parts ++ rest) := rfl

theorem flattenParts_cons_fstr (g : FObj) (ps : List FPart) :
    flattenParts (.fstr g :: ps) =
      (flattenF g) >>= fun gf => (flattenParts ps) >>= fun rest =>
        .ok (gf.parts ++ rest) := rfl

theorem flattenParts_of_flat :
    ∀ (ps : List FPart), (∀ q ∈ ps, isFlatPart q = true) →
      flattenParts ps = .ok ps := by
  intro ps
  induction ps with
  | nil => exact fun _ => rfl
  | cons p ps ih =>
      intro h
      have hp := h p (by simp)
      have ih' := ih (fun q hq => h q (by simp [hq]))
      cases p with
      | fstr g => simp [isFlatPart] at hp
      | lit s => rw [flattenParts_cons_lit, ih']; rfl
      | fvalue src v fmt =>
          cases v with
          | vf g => simp [isFlatPart] at hp
          | vstr x => rw [flattenParts_cons_vstr, ih']; rfl
          | vraw n => rw [flattenParts_cons_vraw, ih']; rfl

theorem flattenF_total :
    ∀ (N : Nat) (f : FObj), sizeOf f ≤ N → wfF f = true → flatSafeF f = true →
      ∃ g, flattenF f = .ok g ∧ g.text = f.text ∧
        concatSurfaces g.parts = f.text ∧ ∀ q ∈ g.parts, isFlatPart q = true := by
  intro N
  induction N using Nat.strong_induction_on with
  | _ N ih =>
    have hlist : ∀ (ps : List FPart), sizeOf ps ≤ N → wfParts ps = true →
        flatSafeParts ps = true →
        ∃ qs, flattenParts ps = .ok qs ∧
          concatSurfaces qs = concatSurfaces ps ∧
          ∀ q ∈ qs, isFlatPart q = true := by
      intro ps
      induction ps with
      | nil => intro _ _ _; exact ⟨[], rfl, rfl, by simp⟩
      | cons p ps ihp =>
          intro hsz hwf hfs
          have hszps : sizeOf ps ≤ N := by simp at hsz; omega
          simp only [wfParts, Bool.and_eq_true] at hwf
          obtain ⟨hwp, hwps⟩ := hwf
          simp only [flatSafeParts, Bool.and_eq_true] at hfs
          obtain ⟨hfp, hfps⟩ := hfs
          obtain ⟨qs, h1, h2, h3⟩ := ihp hszps hwps hfps
          cases p with
          | lit s =>
              refine ⟨.lit s :: qs, ?_, ?_, ?_⟩
              · rw [flattenParts_cons_lit, h1]
                rfl
              · rw [concatSurfaces_cons, concatSurfaces_cons, h2]
              · intro q hq
                rcases List.mem_cons.mp hq with rfl | hq
                · rfl
                · exact h3 q hq
          | fstr g =>
              simp only [wfPart] at hwp
              simp only [flatSafePart] at hfp
              have hglt : sizeOf g < N := by simp at hsz; omega
              obtain ⟨gf, hg1, hg2, hg3, hg4⟩ :=
                ih (sizeOf g) hglt g le_rfl hwp hfp
              refine ⟨gf.parts ++ qs, ?_, ?_, ?_⟩
              · rw [flattenParts_cons_fstr, hg1, h1]
                rfl
              · rw [concatSurfaces_append, concatSurfaces_cons, h2, hg3]
                rfl
              · intro q hq
                rcases List.mem_append.mp hq with hq | hq
                · exact hg4 q hq
                · exact h3 q hq
          | fvalue src v fmt =>
              cases v with
              | vstr x =>
                  refine ⟨.fvalue src (.vstr x) fmt :: qs, ?_, ?_, ?_⟩
                  · rw [flattenParts_cons_vstr, h1]
                    rfl
                  · rw [concatSurfaces_cons, concatSurfaces_cons, h2]
                  · intro q hq
                    rcases List.mem_cons.mp hq with rfl | hq
                    · rfl
                    · exact h3 q hq
              | vraw n =>
                  refine ⟨.fvalue src (.vraw n) fmt :: qs, ?_, ?_, ?_⟩
                  · rw [flattenParts_cons_vraw, h1]
                    rfl
                  · rw [concatSurfaces_cons, concatSurfaces_cons, h2]
                  · intro q hq
                    rcases List.mem_cons.mp hq with rfl | hq
                    · rfl
                    · exact h3 q hq
              | vf g =>
                  simp only [wfPart, wfVal] at hwp
                  simp only [flatSafePart, Bool.and_eq_true,
                    decide_eq_true_eq] at hfp
                  obtain ⟨hfmt, hfg⟩ := hfp
                  have hglt : sizeOf g < N := by simp at hsz; omega
                  obtain ⟨gf, hg1, hg2, hg3, hg4⟩ :=
                    ih (sizeOf g) hglt g le_rfl hwp hfg
                  refine ⟨gf.parts ++ qs, ?_, ?_, ?_⟩
                  · rw [flattenParts_cons_vf, hg1, h1]
                    rfl
                  · rw [concatSurfaces_append, concatSurfaces_cons, h2, hg3]
                    show g.text ++ concatSurfaces ps =
                      (FPart.fvalue src (.vf g) fmt).surface ++
                        concatSurfaces ps
                    simp [FPart.surface, hfmt]
                  · intro q hq
                    rcases List.mem_append.mp hq with hq | hq
                    · exact hg4 q hq
                    · exact h3 q hq
    intro f hszf hwf hfs
    obtain ⟨t, ps⟩ := f
    simp only [wfF, Bool.and_eq_true, decide_eq_true_eq] at hwf
    obtain ⟨hrec, hwps⟩ := hwf
    simp only [flatSafeF] at hfs
    have hszps : sizeOf ps ≤ N := by simp at hszf; omega
    obtain ⟨qs, h1, h2, h3⟩ := hlist ps hszps hwps hfs
    refine ⟨.mk t qs, ?_, rfl, ?_, h3⟩
    · rw [flattenF_mk, h1]
      show mkF t qs = _
      rw [mkF_ok_of (by rw [h2]; exact hrec)]
    · show concatSurfaces qs = t
      rw [h2]
      exact hrec

/-- C4: the claim fails on this code.  `flatten` re-enters the checking
constructor, which asserts Invariant I1 over the rewritten parts; when a
Formatted-Value part whose value is a nested Provenance String has been
partially trimmed (`formatted` shorter than the nested text), the inlined
nested parts no longer reconstruct the text, and `flatten` raises the
assert (`InconsistentPartsError`) instead of returning a new instance.
The failing instance here is produced by the code's own `lstrip`. -/
theorem C4_flatten_counterexample :
    wfF (.mk (chars "x!")
      [.fvalue (chars "s") (.vf (.mk (chars "  x") [.lit (chars "  x")]))
        (.pstr (chars "x")), .lit (chars "!")]) = true
  ∧ lstripF pyWS (.mk (chars "  x!")
      [.fvalue (chars "s") (.vf (.mk (chars "  x") [.lit (chars "  x")]))
        (.pstr (chars "  x")), .lit (chars "!")]) =
      .ok (.mk (chars "x!")
        [.fvalue (chars "s") (.vf (.mk (chars "  x") [.lit (chars "  x")]))
          (.pstr (chars "x")), .lit (chars "!")])
  ∧ flattenF (.mk (chars "x!")
      [.fvalue (chars "s") (.vf (.mk (chars "  x") [.lit (chars "  x")]))
        (.pstr (chars "x")), .lit (chars "!")]) = .error .inconsistentParts :=
  ⟨rfl, rfl, rfl⟩

/-- C4 amended: for every Provenance String in which every Formatted-Value
part (at any depth) carrying a nested Provenance String as value still
displays exactly that nested string's text, `flatten` returns a new
instance with `text` unchanged whose parts contain no nested Provenance
String (neither as a part nor as a Formatted-Value value), and flatten is
idempotent on its result in both text and structure. -/
theorem C4_flatten_flat_idempotent (f : FObj) (hwf : wfF f = true)
    (hfs : flatSafeF f = true) :
    ∃ g, flattenF f = .ok g ∧ g.text = f.text ∧
      (∀ q ∈ g.parts, isFlatPart q = true) ∧ flattenF g = .ok g := by
  obtain ⟨g, h1, h2, h3, h4⟩ := flattenF_total (sizeOf f) f le_rfl hwf hfs
  refine ⟨g, h1, h2, h4, ?_⟩
  have hrec : concatSurfaces g.parts = g.text := by rw [h3, h2]
  obtain ⟨t, qs⟩ := g
  rw [flattenF_mk, flattenParts_of_flat qs h4]
  show mkF t qs = _
  exact mkF_ok_of hrec

/-- Closed witness for the amended C4 at
`F("ab", ("a", FValue(e, F("b"), "b")))`. -/
theorem C4_flatten_flat_idempotent_witness :
    ∃ g, flattenF (.mk (chars "ab")
        [.lit (chars "a"),
         .fvalue (chars "e") (.vf (.mk (chars "b") [.lit (chars "b")]))
           (.pstr (chars "b"))]) = .ok g ∧
      g.text = (FObj.mk (chars "ab")
        [.lit (chars "a"),
         .fvalue (chars "e") (.vf (.mk (chars "b") [.lit (chars "b")]))
           (.pstr (chars "b"))]).text ∧
      (∀ q ∈ g.parts, isFlatPart q = true) ∧ flattenF g = .ok g :=
  C4_flatten_flat_idempotent _ rfl rfl
